import Mathlib

set_option maxRecDepth 8000

/-!
Verification of the codec subsystem of contangle-zkcp (src/zkp/src/utils.rs):
plaintext chunking, the ciphertext binary layout, and key artifact
persistence.  The generic Rust functions are parametric over an arkworks
curve; they are embedded here over an abstract algebra provider that mirrors
exactly the trait operations the Rust code uses.  Bytes are naturals
(with boundedness below 256 assumed only where a statement needs it).
-/

/-- Error cases of the codec operations, one per anyhow error site of utils.rs. -/
inductive CodecError where
  | encodingChunks
  | writeError
  | encodingC1
  | encodingC2
  | decodingC1
  | decodingC2
  | encodingPK
  | encodingVK
  | ioError
  | decodingPK
  | decodingVK
deriving DecidableEq

/-- Boolean test that an Except result is a success. -/
def isOkE {ε α : Type} : Except ε α → Bool
  | .ok _ => true
  | .error _ => false

/-- Operations of the external algebra library (arkworks) that the generic
codec functions of utils.rs are parametric over, as an abstract capability
interface (the spec's Algebra Provider).  Option results model the Rust
Result-typed serializers and the partial deserializers. -/
structure AlgebraProvider where
  Proj : Type
  Affine : Type
  FieldEl : Type
  affineSer : Affine → Option (List Nat)
  affineDeser : List Nat → Option Affine
  fieldSer : FieldEl → Option (List Nat)
  fieldDeser : List Nat → Option FieldEl
  toBytes : FieldEl → Option (List Nat)
  fromRandomBytes : List Nat → Option FieldEl
  intoAffine : Proj → Affine
  intoProjective : Affine → Proj

/-- One Read.read into a zero-initialised buffer of size n over an in-memory
slice: min(n, available) bytes are copied, the rest of the buffer stays 0. -/
def readPad (n : Nat) (bytes : List Nat) : List Nat :=
  bytes.take n ++ List.replicate (n - bytes.length) 0

/-- The read loop of bytes_to_plaintext_chunks, with an explicit fuel that is
only a termination device (the loop consumes at least one byte per step). -/
def toChunksAux : Nat → List Nat → List (List Nat)
  | 0, _ => []
  | _, [] => []
  | fuel + 1, bytes => readPad 32 bytes :: toChunksAux fuel (bytes.drop 32)

/-- The 32-byte read loop of bytes_to_plaintext_chunks: successive 32-byte
buffers, the final partial one zero-padded on the right. -/
def toChunks (bytes : List Nat) : List (List Nat) :=
  toChunksAux bytes.length bytes

/-- The collect over Option of mapping from_random_bytes across the chunks. -/
def collectChunks (P : AlgebraProvider) : List (List Nat) → Option (List P.FieldEl)
  | [] => some []
  | g :: gs =>
    match P.fromRandomBytes g, collectChunks P gs with
    | some x, some xs => some (x :: xs)
    | _, _ => none

/-- bytes_to_plaintext_chunks of utils.rs. -/
def bytes_to_plaintext_chunks (P : AlgebraProvider) (bytes : List Nat) :
    Except CodecError (List P.FieldEl) :=
  match collectChunks P (toChunks bytes) with
  | some res => .ok res
  | none => .error .encodingChunks

/-- The rev / skip_while zero / reverse pipeline of plaintext_chunks_to_bytes:
drop the trailing zero bytes of a chunk encoding. -/
def stripTrailingZeros (bs : List Nat) : List Nat :=
  (bs.reverse.dropWhile (· == 0)).reverse

/-- Default capacity of the BufWriter internal buffer. -/
def bufWriterCapacity : Nat := 8192

/-- One BufWriter.write of w against an internal buffer acc, with the flush
to the underlying slice elided: used to state what bytes remain in the
internal buffer, which is what plaintext_chunks_to_bytes returns. -/
def bufStep (acc w : List Nat) : List Nat :=
  if bufWriterCapacity < acc.length + w.length then w else acc ++ w

/-- The write loop of plaintext_chunks_to_bytes.  internal is the BufWriter
buffer, room the remaining space of the underlying slice.  A chunk whose
serialization fails is skipped (the if-let-Ok in the source).  BufWriter.write
first flushes when the incoming bytes do not fit together with the buffered
ones (an error when the underlying slice cannot take the buffered bytes),
then either buffers the incoming bytes or, when they alone reach the
capacity, writes them straight to the underlying slice (a short direct write
is silently truncated, as the source ignores the returned count). -/
def writeLoop (P : AlgebraProvider) :
    List P.FieldEl → List Nat → Nat → Except CodecError (List Nat)
  | [], internal, _ => .ok internal
  | c :: rest, internal, room =>
    match P.toBytes c with
    | none => writeLoop P rest internal room
    | some bs =>
      if bufWriterCapacity < internal.length + (stripTrailingZeros bs).length then
        if room < internal.length then .error .writeError
        else if bufWriterCapacity ≤ (stripTrailingZeros bs).length then
          writeLoop P rest []
            (room - internal.length -
              min (stripTrailingZeros bs).length (room - internal.length))
        else writeLoop P rest (stripTrailingZeros bs) (room - internal.length)
      else writeLoop P rest (internal ++ stripTrailingZeros bs) room

/-- plaintext_chunks_to_bytes of utils.rs: the underlying slice holds
32 * chunks.len() zero bytes, and the function returns the bytes left in the
BufWriter internal buffer at the end of the loop. -/
def plaintext_chunks_to_bytes (P : AlgebraProvider) (chunks : List P.FieldEl) :
    Except CodecError (List Nat) :=
  writeLoop P chunks [] (32 * chunks.length)

/-- Encode to chunks then decode back to bytes. -/
def roundTrip (P : AlgebraProvider) (bytes : List Nat) : Except CodecError (List Nat) :=
  match bytes_to_plaintext_chunks P bytes with
  | .ok chunks => plaintext_chunks_to_bytes P chunks
  | .error e => .error e

/-- ciphertext_to_bytes of utils.rs: affine encoding of c1 followed by the
encoding of c2. -/
def ciphertext_to_bytes (P : AlgebraProvider) (ct : P.Proj × P.FieldEl) :
    Except CodecError (List Nat) :=
  match P.affineSer (P.intoAffine ct.1) with
  | none => .error .encodingC1
  | some c1 =>
    match P.fieldSer ct.2 with
    | none => .error .encodingC2
    | some c2 => .ok (c1 ++ c2)

/-- ciphertext_from_bytes of utils.rs: a best-effort read of 48 bytes into a
zeroed buffer, decode c1, a best-effort read of 32 more bytes, decode c2.
Reads over an in-memory slice never return an io error, so the two map_err
sites on the reads are unreachable. -/
def ciphertext_from_bytes (P : AlgebraProvider) (bytes : List Nat) :
    Except CodecError (P.Proj × P.FieldEl) :=
  match P.affineDeser (readPad 48 bytes) with
  | none => .error .decodingC1
  | some c1 =>
    match P.fieldDeser (readPad 32 (bytes.drop 48)) with
    | none => .error .decodingC2
    | some c2 => .ok (P.intoProjective c1, c2)

/-- Canonical serialization interface of the Groth16 key artifacts. -/
structure KeyCodec where
  PK : Type
  VK : Type
  pkSer : PK → Option (List Nat)
  pkDeser : List Nat → Option PK
  vkSer : VK → Option (List Nat)
  vkDeser : List Nat → Option VK

/-- Paths as component lists; Path::join appends one component. -/
abbrev PathT := List String

/-- The file system as a map from paths to file contents. -/
abbrev FS := PathT → Option (List Nat)

def pkFile : String := "circuit.pk"

def vkFile : String := "circuit.vk"

def pathJoin (dir : PathT) (file : String) : PathT := dir ++ [file]

def fsWrite (fs : FS) (p : PathT) (data : List Nat) : FS :=
  fun q => if q = p then some data else fs q

/-- write_artifacts_json of utils.rs over the in-memory file system
(fs::write modelled as a map update that does not fail). -/
def write_artifacts_json (K : KeyCodec) (dir : PathT) (pk : K.PK) (vk : K.VK)
    (fs : FS) : Except CodecError FS :=
  match K.pkSer pk with
  | none => .error .encodingPK
  | some pkBuf =>
    match K.vkSer vk with
    | none => .error .encodingVK
    | some vkBuf =>
      .ok (fsWrite (fsWrite fs (pathJoin dir pkFile) pkBuf) (pathJoin dir vkFile) vkBuf)

/-- read_proving_key of utils.rs. -/
def read_proving_key (K : KeyCodec) (fs : FS) (path : PathT) :
    Except CodecError K.PK :=
  match fs path with
  | none => .error .ioError
  | some buf =>
    match K.pkDeser buf with
    | none => .error .decodingPK
    | some pk => .ok pk

/-- read_verifying_key of utils.rs. -/
def read_verifying_key (K : KeyCodec) (fs : FS) (path : PathT) :
    Except CodecError K.VK :=
  match fs path with
  | none => .error .ioError
  | some buf =>
    match K.vkDeser buf with
    | none => .error .decodingVK
    | some vk => .ok vk

/-- Little-endian byte decomposition with a fixed width. -/
def natToBytesLE : Nat → Nat → List Nat
  | 0, _ => []
  | n + 1, v => v % 256 :: natToBytesLE n (v / 256)

/-- Little-endian byte recomposition. -/
def bytesLEToNat : List Nat → Nat
  | [] => 0
  | b :: bs => b + 256 * bytesLEToNat bs

def specAffineBound : Nat := 2 ^ 380

def specFieldBound : Nat := 2 ^ 255

/-- Modelled from the spec: the concrete Algebra Provider instantiation of the
codec is not under src/ (src/ only holds the generic functions); sections 3
and 6 of the spec fix a 48-byte canonical affine encoding, a 32-byte
canonical field encoding, lossless affine/projective conversion, and a
from-random-bytes mapping defined exactly on encodings of values below the
modulus.  Values are little-endian, as the arkworks encodings are. -/
def specProvider : AlgebraProvider where
  Proj := Fin specAffineBound
  Affine := Fin specAffineBound
  FieldEl := Fin specFieldBound
  affineSer a := some (natToBytesLE 48 a.val)
  affineDeser bs :=
    if h : 48 ≤ bs.length ∧ bytesLEToNat (bs.take 48) < specAffineBound then
      some ⟨bytesLEToNat (bs.take 48), h.2⟩
    else none
  fieldSer x := some (natToBytesLE 32 x.val)
  fieldDeser bs :=
    if h : 32 ≤ bs.length ∧ bytesLEToNat (bs.take 32) < specFieldBound then
      some ⟨bytesLEToNat (bs.take 32), h.2⟩
    else none
  toBytes x := some (natToBytesLE 32 x.val)
  fromRandomBytes bs :=
    if h : bytesLEToNat (bs.take 32) < specFieldBound then
      some ⟨bytesLEToNat (bs.take 32), h⟩
    else none
  intoAffine p := p
  intoProjective a := a

/-- The chunking as section 4.1 of the spec words it: group i is bytes
32i..32i+32 placed at the start of a 32-byte zero buffer; the number of
groups is the length divided by 32, rounded up. -/
def pad32 (g : List Nat) : List Nat := g ++ List.replicate (32 - g.length) 0

def specChunks (b : List Nat) : List (List Nat) :=
  (List.range ((b.length + 31) / 32)).map fun i => pad32 ((b.drop (32 * i)).take 32)

/-- A 64-byte buffer whose first 32-byte group ends in zero bytes while its
trailing group is free of them. -/
def c1bad : List Nat := [1] ++ List.replicate 31 0 ++ List.replicate 32 1

/-- What the round trip actually returns on c1bad. -/
def c1out : List Nat := [1] ++ List.replicate 32 1

/-- A 32-byte buffer on which the round trip is lossless. -/
def c1good : List Nat := List.replicate 32 1

/-- A 79-byte buffer: a valid 48-byte affine encoding followed by only 31 of
the 32 field bytes. -/
def c3input : List Nat := natToBytesLE 48 5 ++ List.replicate 31 7

def ctEx : specProvider.Proj × specProvider.FieldEl :=
  (⟨5, by decide⟩, ⟨9, by decide⟩)

def ctBytesEx : List Nat := natToBytesLE 48 5 ++ natToBytesLE 32 9

def b80 : List Nat := List.replicate 80 1

def chunkEx : List specProvider.FieldEl := [⟨3, by decide⟩]

/-- A key codec over one-byte keys, used to instantiate the generic store. -/
def natKeyCodec : KeyCodec where
  PK := Fin 256
  VK := Fin 256
  pkSer x := some [x.val]
  pkDeser bs :=
    match bs with
    | [b] => if h : b < 256 then some ⟨b, h⟩ else none
    | _ => none
  vkSer x := some [x.val]
  vkDeser bs :=
    match bs with
    | [b] => if h : b < 256 then some ⟨b, h⟩ else none
    | _ => none

def fsEmpty : FS := fun _ => none

def keysDir : String := "keys"

def pkEx : natKeyCodec.PK := ⟨3, by decide⟩

def vkEx : natKeyCodec.VK := ⟨4, by decide⟩

def fsEx : FS :=
  fsWrite (fsWrite fsEmpty (pathJoin [keysDir] pkFile) [3]) (pathJoin [keysDir] vkFile) [4]

/-! ## Helper lemmas -/

theorem natToBytesLE_length : ∀ (n v : Nat), (natToBytesLE n v).length = n := by
  intro n
  induction n with
  | zero => intro v; rfl
  | succ n ih => intro v; simp [natToBytesLE, ih]

theorem bytesLEToNat_natToBytesLE : ∀ (n v : Nat), v < 256 ^ n →
    bytesLEToNat (natToBytesLE n v) = v := by
  intro n
  induction n with
  | zero =>
    intro v hv
    simp only [pow_zero, Nat.lt_one_iff] at hv
    simp [natToBytesLE, bytesLEToNat, hv]
  | succ n ih =>
    intro v hv
    have hdiv : v / 256 < 256 ^ n := by
      apply Nat.div_lt_of_lt_mul
      calc v < 256 ^ (n + 1) := hv
        _ = 256 * 256 ^ n := by ring
    simp only [natToBytesLE, bytesLEToNat, ih (v / 256) hdiv]
    omega

theorem natToBytesLE_bytesLEToNat : ∀ (g : List Nat) (n : Nat), g.length = n →
    (∀ x ∈ g, x < 256) → natToBytesLE n (bytesLEToNat g) = g := by
  intro g
  induction g with
  | nil =>
    intro n hn _
    simp at hn
    subst hn
    rfl
  | cons b bs ih =>
    intro n hn hlt
    cases n with
    | zero => simp at hn
    | succ m =>
      have hb : b < 256 := hlt b (by simp)
      have hmod : (b + 256 * bytesLEToNat bs) % 256 = b := by omega
      have hdiv : (b + 256 * bytesLEToNat bs) / 256 = bytesLEToNat bs := by omega
      simp only [bytesLEToNat, natToBytesLE, hmod, hdiv]
      have hm : bs.length = m := by simpa using hn
      rw [ih m hm (fun x hx => hlt x (by simp [hx]))]

theorem length_readPad (n : Nat) (b : List Nat) : (readPad n b).length = n := by
  simp [readPad, List.length_take]
  omega

theorem readPad_eq_take {n : Nat} {b : List Nat} (h : n ≤ b.length) :
    readPad n b = b.take n := by
  simp [readPad, Nat.sub_eq_zero_of_le h]

theorem readPad_append_zeros (n : Nat) (b : List Nat) (k : Nat) :
    readPad n (b ++ List.replicate k 0) = readPad n b := by
  simp only [readPad, List.take_append_eq_append_take, List.take_replicate,
    List.length_append, List.length_replicate, List.append_assoc]
  congr 1
  rw [← List.replicate_add]
  congr 1
  omega

theorem readPad_append_of_le {n : Nat} {b : List Nat} (e : List Nat) (h : n ≤ b.length) :
    readPad n (b ++ e) = readPad n b := by
  simp only [readPad, List.take_append_eq_append_take, Nat.sub_eq_zero_of_le h,
    List.take_zero, List.append_nil, List.length_append]
  congr 1
  congr 1
  omega

theorem toChunksAux_nil : ∀ f : Nat, toChunksAux f [] = [] := by
  intro f
  cases f <;> rfl

theorem toChunksAux_congr : ∀ (f g : Nat) (b : List Nat),
    b.length ≤ f → b.length ≤ g → toChunksAux f b = toChunksAux g b := by
  intro f
  induction f with
  | zero =>
    intro g b hf _
    have hb : b = [] := List.eq_nil_of_length_eq_zero (Nat.le_zero.mp hf)
    subst hb
    rw [toChunksAux_nil, toChunksAux_nil]
  | succ f ih =>
    intro g b hf hg
    cases b with
    | nil => rw [toChunksAux_nil, toChunksAux_nil]
    | cons x xs =>
      cases g with
      | zero => simp at hg
      | succ g =>
        simp only [toChunksAux]
        congr 1
        apply ih <;> simp only [List.length_drop, List.length_cons] at hf hg ⊢ <;> omega

theorem toChunks_nil : toChunks [] = [] := rfl

theorem toChunks_cons {b : List Nat} (h : b ≠ []) :
    toChunks b = readPad 32 b :: toChunks (b.drop 32) := by
  cases b with
  | nil => exact absurd rfl h
  | cons x xs =>
    show toChunksAux (xs.length + 1) (x :: xs) = _
    simp only [toChunksAux]
    congr 1
    apply toChunksAux_congr
    · simp only [List.length_drop, List.length_cons]
      omega
    · exact le_rfl

theorem mem_toChunksAux_length : ∀ (f : Nat) (b g : List Nat),
    g ∈ toChunksAux f b → g.length = 32 := by
  intro f
  induction f with
  | zero => intro b g hg; simp [toChunksAux] at hg
  | succ f ih =>
    intro b g hg
    cases b with
    | nil => simp [toChunksAux] at hg
    | cons x xs =>
      simp only [toChunksAux, List.mem_cons] at hg
      rcases hg with hg | hg
      · rw [hg, length_readPad]
      · exact ih _ _ hg

theorem mem_toChunks_length {b g : List Nat} (hg : g ∈ toChunks b) : g.length = 32 :=
  mem_toChunksAux_length b.length b g hg

theorem toChunks_flatten : ∀ (f : Nat) (b : List Nat), b.length ≤ f → 32 ∣ b.length →
    (toChunks b).flatten = b := by
  intro f
  induction f with
  | zero =>
    intro b hf _
    have hb : b = [] := List.eq_nil_of_length_eq_zero (Nat.le_zero.mp hf)
    subst hb
    rfl
  | succ f ih =>
    intro b hf hdvd
    cases b with
    | nil => rfl
    | cons x xs =>
      have hne : (x :: xs : List Nat) ≠ [] := by simp
      have hlen : 32 ≤ (x :: xs : List Nat).length := by
        rcases hdvd with ⟨k, hk⟩
        simp only [List.length_cons] at hk ⊢
        omega
      rw [toChunks_cons hne, List.flatten_cons, readPad_eq_take hlen,
        ih ((x :: xs).drop 32)
          (by simp only [List.length_drop, List.length_cons] at hf ⊢; omega)
          (by simp only [List.length_drop]; omega)]
      exact List.take_append_drop 32 (x :: xs)

theorem stripTrailingZeros_eq_self {bs : List Nat} (h : bs.getLast? ≠ some 0) :
    stripTrailingZeros bs = bs := by
  rcases hr : bs.reverse with _ | ⟨a, rs⟩
  · have : bs = [] := by simpa using congrArg List.reverse hr
    simp [this, stripTrailingZeros]
  · have hbs : bs = rs.reverse ++ [a] := by
      have := congrArg List.reverse hr
      simpa using this
    have ha : a ≠ 0 := by
      intro ha0
      apply h
      rw [hbs, ha0]
      exact List.getLast?_concat _
    rw [stripTrailingZeros, hr, List.dropWhile_cons]
    simp only [beq_iff_eq, ha, if_false]
    rw [← hr, List.reverse_reverse]

theorem dropWhile_length_le {α : Type} (p : α → Bool) : ∀ l : List α,
    (l.dropWhile p).length ≤ l.length := by
  intro l
  induction l with
  | nil => simp
  | cons a l ih =>
    rw [List.dropWhile_cons]
    by_cases h : p a = true
    · simp only [h, if_true]
      exact le_trans ih (by simp)
    · simp [h]

theorem length_stripTrailingZeros_le (bs : List Nat) :
    (stripTrailingZeros bs).length ≤ bs.length := by
  rw [stripTrailingZeros, List.length_reverse]
  calc (bs.reverse.dropWhile (· == 0)).length ≤ bs.reverse.length :=
        dropWhile_length_le _ _
    _ = bs.length := List.length_reverse _

theorem collectChunks_none_iff (P : AlgebraProvider) : ∀ gs : List (List Nat),
    collectChunks P gs = none ↔ ∃ g ∈ gs, P.fromRandomBytes g = none := by
  intro gs
  induction gs with
  | nil => simp [collectChunks]
  | cons g gs ih =>
    rcases hg : P.fromRandomBytes g with _ | x
    · constructor
      · intro _
        exact ⟨g, List.mem_cons_self g gs, hg⟩
      · intro _
        simp [collectChunks, hg]
    · rcases hgs : collectChunks P gs with _ | xs
      · constructor
        · intro _
          rcases ih.mp hgs with ⟨g2, hmem, hnone⟩
          exact ⟨g2, List.mem_cons_of_mem g hmem, hnone⟩
        · intro _
          simp [collectChunks, hg, hgs]
      · constructor
        · intro hco
          simp [collectChunks, hg, hgs] at hco
        · rintro ⟨g2, hmem, hnone⟩
          exfalso
          rcases List.mem_cons.mp hmem with h2 | h2
          · subst h2
            rw [hg] at hnone
            simp at hnone
          · have hn : collectChunks P gs = none := ih.mpr ⟨g2, h2, hnone⟩
            rw [hgs] at hn
            simp at hn

theorem collectChunks_of_forall (P : AlgebraProvider) (Q : P.FieldEl → List Nat → Prop) :
    ∀ gs : List (List Nat),
    (∀ g ∈ gs, ∃ x, P.fromRandomBytes g = some x ∧ Q x g) →
    ∃ xs, collectChunks P gs = some xs ∧ List.Forall₂ Q xs gs := by
  intro gs
  induction gs with
  | nil => exact fun _ => ⟨[], rfl, List.Forall₂.nil⟩
  | cons g gs ih =>
    intro hall
    rcases hall g (by simp) with ⟨x, hx, hq⟩
    rcases ih (fun g2 h2 => hall g2 (by simp [h2])) with ⟨xs, hxs, hf2⟩
    refine ⟨x :: xs, ?_, List.Forall₂.cons hq hf2⟩
    simp only [collectChunks, hx, hxs]

theorem forall₂_and_right {α β : Type} {Q : α → β → Prop} {R : β → Prop} :
    ∀ {xs : List α} {gs : List β}, List.Forall₂ Q xs gs → (∀ g ∈ gs, R g) →
    List.Forall₂ (fun x g => Q x g ∧ R g) xs gs := by
  intro xs gs h
  induction h with
  | nil => intro _; exact List.Forall₂.nil
  | cons hq _ ih =>
    intro hall
    exact List.Forall₂.cons ⟨hq, hall _ (by simp)⟩ (ih fun g hg => hall g (by simp [hg]))

theorem writeLoop_append (P : AlgebraProvider) :
    ∀ (cs : List P.FieldEl) (bss : List (List Nat)) (internal : List Nat) (room : Nat),
    List.Forall₂ (fun c bs => P.toBytes c = some bs ∧ stripTrailingZeros bs = bs) cs bss →
    internal.length + (bss.map List.length).sum ≤ bufWriterCapacity →
    writeLoop P cs internal room = .ok (internal ++ bss.flatten) := by
  intro cs bss internal room hf2
  induction hf2 generalizing internal room with
  | nil =>
    intro _
    simp [writeLoop]
  | @cons c bs cs bss hc _ ih =>
    intro hsum
    rcases hc with ⟨hser, hstrip⟩
    have hcap : bufWriterCapacity = 8192 := rfl
    simp only [List.map_cons, List.sum_cons] at hsum
    have hno : ¬ bufWriterCapacity < internal.length + (stripTrailingZeros bs).length := by
      rw [hstrip]
      omega
    rw [writeLoop, hser]
    simp only [hno, if_false]
    rw [hstrip, ih (internal ++ bs) room (by simp only [List.length_append]; omega)]
    simp [List.flatten_cons]

theorem writeLoop_eq_foldl (P : AlgebraProvider) :
    ∀ (cs : List P.FieldEl) (internal : List Nat) (room : Nat),
    (∀ c ∈ cs, ∀ bs, P.toBytes c = some bs → bs.length ≤ 32) →
    internal.length + 32 * cs.length ≤ room →
    writeLoop P cs internal room =
      .ok (((cs.filterMap P.toBytes).map stripTrailingZeros).foldl bufStep internal) := by
  intro cs
  induction cs with
  | nil =>
    intro internal room _ _
    simp [writeLoop]
  | cons c rest ih =>
    intro internal room hw hroom
    have hcap : bufWriterCapacity = 8192 := rfl
    simp only [List.length_cons] at hroom
    rcases hser : P.toBytes c with _ | bs
    · rw [writeLoop, hser, ih internal room
        (fun c2 h2 => hw c2 (by simp [h2])) (by omega)]
      simp [List.filterMap_cons, hser]
    · have hbs : bs.length ≤ 32 := hw c (by simp) bs hser
      have hwlen : (stripTrailingZeros bs).length ≤ 32 :=
        le_trans (length_stripTrailingZeros_le bs) hbs
      rw [writeLoop, hser]
      simp only [List.filterMap_cons, hser, List.map_cons, List.foldl_cons]
      by_cases hflush : bufWriterCapacity < internal.length + (stripTrailingZeros bs).length
      · have hnodirect : ¬ bufWriterCapacity ≤ (stripTrailingZeros bs).length := by omega
        have hnoroom : ¬ room < internal.length := by omega
        simp only [hflush, if_true, hnoroom, if_false, hnodirect]
        rw [ih (stripTrailingZeros bs) (room - internal.length)
          (fun c2 h2 => hw c2 (by simp [h2])) (by omega)]
        have hstep : bufStep internal (stripTrailingZeros bs) = stripTrailingZeros bs := by
          rw [bufStep, if_pos hflush]
        rw [hstep]
      · simp only [hflush, if_false]
        rw [ih (internal ++ stripTrailingZeros bs) room
          (fun c2 h2 => hw c2 (by simp [h2])) (by simp only [List.length_append]; omega)]
        have hstep : bufStep internal (stripTrailingZeros bs) = internal ++ stripTrailingZeros bs := by
          rw [bufStep, if_neg hflush]
        rw [hstep]

theorem readPad_eq_pad32 (b : List Nat) : readPad 32 b = pad32 (b.take 32) := by
  simp only [readPad, pad32, List.length_take]
  congr 2
  omega

theorem specChunks_nil : specChunks [] = [] := rfl

theorem specChunks_cons {b : List Nat} (h : b ≠ []) :
    specChunks b = pad32 (b.take 32) :: specChunks (b.drop 32) := by
  have hpos : 0 < b.length := List.length_pos.mpr h
  have hn : (b.length + 31) / 32 = ((b.length - 32) + 31) / 32 + 1 := by omega
  rw [specChunks, hn, List.range_succ_eq_map, List.map_cons, List.map_map]
  congr 1
  rw [specChunks, List.length_drop]
  apply List.map_congr_left
  intro i _
  simp only [Function.comp_apply]
  have hd : List.drop (32 * i) (List.drop 32 b) = List.drop (32 * Nat.succ i) b := by
    rw [List.drop_drop]
    congr 1
    omega
  rw [hd]

theorem toChunks_eq_specChunks_aux : ∀ (f : Nat) (b : List Nat), b.length ≤ f →
    toChunks b = specChunks b := by
  intro f
  induction f with
  | zero =>
    intro b hf
    have hb : b = [] := List.eq_nil_of_length_eq_zero (Nat.le_zero.mp hf)
    subst hb
    rfl
  | succ f ih =>
    intro b hf
    rcases hb : b with _ | ⟨x, xs⟩
    · rfl
    · rw [← hb]
      have hne : b ≠ [] := by rw [hb]; simp
      rw [toChunks_cons hne, specChunks_cons hne, readPad_eq_pad32]
      congr 1
      apply ih
      simp only [List.length_drop]
      rw [hb] at hf ⊢
      simp only [List.length_cons] at hf ⊢
      omega

theorem toChunks_eq_specChunks (b : List Nat) : toChunks b = specChunks b :=
  toChunks_eq_specChunks_aux b.length b le_rfl

theorem drop_append_replicate_zero (n : Nat) (b : List Nat) (k : Nat) :
    readPad n ((b ++ List.replicate k 0).drop 48) = readPad n (b.drop 48) := by
  rw [List.drop_append_eq_append_drop, List.drop_replicate, readPad_append_zeros]

theorem ciphertext_from_bytes_pad (P : AlgebraProvider) (b : List Nat) (k : Nat) :
    ciphertext_from_bytes P (b ++ List.replicate k 0) = ciphertext_from_bytes P b := by
  rw [ciphertext_from_bytes, ciphertext_from_bytes,
    readPad_append_zeros, drop_append_replicate_zero]

theorem specProvider_affineSer_def (a : specProvider.Affine) :
    specProvider.affineSer a = some (natToBytesLE 48 a.val) := rfl

theorem specProvider_affineDeser_def (bs : List Nat) :
    specProvider.affineDeser bs =
      if h : 48 ≤ bs.length ∧ bytesLEToNat (bs.take 48) < specAffineBound then
        some ⟨bytesLEToNat (bs.take 48), h.2⟩
      else none := rfl

theorem specProvider_fieldSer_def (x : specProvider.FieldEl) :
    specProvider.fieldSer x = some (natToBytesLE 32 x.val) := rfl

theorem specProvider_fieldDeser_def (bs : List Nat) :
    specProvider.fieldDeser bs =
      if h : 32 ≤ bs.length ∧ bytesLEToNat (bs.take 32) < specFieldBound then
        some ⟨bytesLEToNat (bs.take 32), h.2⟩
      else none := rfl

theorem specProvider_toBytes_def (x : specProvider.FieldEl) :
    specProvider.toBytes x = some (natToBytesLE 32 x.val) := rfl

theorem specProvider_fromRandomBytes_def (bs : List Nat) :
    specProvider.fromRandomBytes bs =
      if h : bytesLEToNat (bs.take 32) < specFieldBound then
        some ⟨bytesLEToNat (bs.take 32), h⟩
      else none := rfl

theorem pow256_eq (n : Nat) : (256 : Nat) ^ n = 2 ^ (8 * n) := by
  rw [pow_mul]
  norm_num

theorem specAffineBound_le : specAffineBound ≤ 256 ^ 48 := by
  rw [pow256_eq, specAffineBound]
  exact Nat.pow_le_pow_right (by norm_num) (by norm_num)

theorem specFieldBound_le : specFieldBound ≤ 256 ^ 32 := by
  rw [pow256_eq, specFieldBound]
  exact Nat.pow_le_pow_right (by norm_num) (by norm_num)

theorem specProvider_affineSer_length :
    ∀ (a : specProvider.Affine) (bs : List Nat),
    specProvider.affineSer a = some bs → bs.length = 48 := by
  intro a bs h
  rw [specProvider_affineSer_def] at h
  obtain rfl := Option.some.inj h
  exact natToBytesLE_length 48 a.val

theorem specProvider_fieldSer_length :
    ∀ (x : specProvider.FieldEl) (bs : List Nat),
    specProvider.fieldSer x = some bs → bs.length = 32 := by
  intro x bs h
  rw [specProvider_fieldSer_def] at h
  obtain rfl := Option.some.inj h
  exact natToBytesLE_length 32 x.val

theorem specProvider_toBytes_le :
    ∀ (x : specProvider.FieldEl) (bs : List Nat),
    specProvider.toBytes x = some bs → bs.length ≤ 32 := by
  intro x bs h
  rw [specProvider_toBytes_def] at h
  obtain rfl := Option.some.inj h
  exact le_of_eq (natToBytesLE_length 32 x.val)

theorem specProvider_affineDeser_some {bs : List Nat} (h48 : 48 ≤ bs.length)
    (hv : bytesLEToNat (bs.take 48) < specAffineBound) :
    specProvider.affineDeser bs = some ⟨bytesLEToNat (bs.take 48), hv⟩ := by
  rw [specProvider_affineDeser_def, dif_pos (And.intro h48 hv)]

theorem specProvider_fieldDeser_some {bs : List Nat} (h32 : 32 ≤ bs.length)
    (hv : bytesLEToNat (bs.take 32) < specFieldBound) :
    specProvider.fieldDeser bs = some ⟨bytesLEToNat (bs.take 32), hv⟩ := by
  rw [specProvider_fieldDeser_def, dif_pos (And.intro h32 hv)]

theorem specProvider_affine_roundtrip :
    ∀ (a : specProvider.Affine) (bs : List Nat),
    specProvider.affineSer a = some bs → specProvider.affineDeser bs = some a := by
  intro a bs h
  rw [specProvider_affineSer_def] at h
  obtain rfl := Option.some.inj h
  have hlen : (natToBytesLE 48 a.val).length = 48 := natToBytesLE_length 48 a.val
  have hval : bytesLEToNat ((natToBytesLE 48 a.val).take 48) = a.val := by
    rw [List.take_of_length_le (le_of_eq hlen)]
    exact bytesLEToNat_natToBytesLE 48 a.val (lt_of_lt_of_le a.isLt specAffineBound_le)
  have hlt : bytesLEToNat ((natToBytesLE 48 a.val).take 48) < specAffineBound := by
    rw [hval]
    exact a.isLt
  rw [specProvider_affineDeser_some (le_of_eq hlen.symm) hlt, Option.some.injEq]
  exact Fin.eq_of_val_eq hval

theorem specProvider_field_roundtrip :
    ∀ (x : specProvider.FieldEl) (bs : List Nat),
    specProvider.fieldSer x = some bs → specProvider.fieldDeser bs = some x := by
  intro x bs h
  rw [specProvider_fieldSer_def] at h
  obtain rfl := Option.some.inj h
  have hlen : (natToBytesLE 32 x.val).length = 32 := natToBytesLE_length 32 x.val
  have hval : bytesLEToNat ((natToBytesLE 32 x.val).take 32) = x.val := by
    rw [List.take_of_length_le (le_of_eq hlen)]
    exact bytesLEToNat_natToBytesLE 32 x.val (lt_of_lt_of_le x.isLt specFieldBound_le)
  have hlt : bytesLEToNat ((natToBytesLE 32 x.val).take 32) < specFieldBound := by
    rw [hval]
    exact x.isLt
  rw [specProvider_fieldDeser_some (le_of_eq hlen.symm) hlt, Option.some.injEq]
  exact Fin.eq_of_val_eq hval

theorem specProvider_proj : ∀ p : specProvider.Proj,
    specProvider.intoProjective (specProvider.intoAffine p) = p := fun _ => rfl

theorem specProvider_chunk_inverse (g : List Nat) (h32 : g.length = 32)
    (hbytes : ∀ x ∈ g, x < 256) (hlt : bytesLEToNat g < specFieldBound) :
    ∃ x, specProvider.fromRandomBytes g = some x ∧ specProvider.toBytes x = some g := by
  have htake : g.take 32 = g := by
    rw [← h32]
    exact List.take_length _
  refine ⟨⟨bytesLEToNat g, hlt⟩, ?_, ?_⟩
  · rw [specProvider_fromRandomBytes_def, htake, dif_pos hlt]
  · rw [specProvider_toBytes_def]
    congr 1
    exact natToBytesLE_bytesLEToNat g 32 h32 hbytes

theorem pathJoin_inj {d : PathT} {a b : String} (h : pathJoin d a = pathJoin d b) :
    a = b := by
  induction d with
  | nil => simpa [pathJoin] using h
  | cons x xs ih =>
    simp only [pathJoin, List.cons_append, List.cons.injEq] at h
    exact ih h.2

theorem pk_vk_path_ne (d : PathT) : pathJoin d pkFile ≠ pathJoin d vkFile := by
  intro h
  have h2 : pkFile = vkFile := pathJoin_inj h
  rw [pkFile, vkFile] at h2
  exact absurd h2 (by decide)

theorem natKeyCodec_pk_roundtrip :
    ∀ (x : natKeyCodec.PK) (bs : List Nat),
    natKeyCodec.pkSer x = some bs → natKeyCodec.pkDeser bs = some x := by
  intro x bs h
  have h2 : some [x.val] = some bs := h
  obtain rfl := Option.some.inj h2
  show (if h : x.val < 256 then some (⟨x.val, h⟩ : Fin 256) else none) = some x
  rw [dif_pos x.isLt, Option.some.injEq]
  exact Fin.eq_of_val_eq rfl

theorem natKeyCodec_vk_roundtrip :
    ∀ (x : natKeyCodec.VK) (bs : List Nat),
    natKeyCodec.vkSer x = some bs → natKeyCodec.vkDeser bs = some x := by
  intro x bs h
  have h2 : some [x.val] = some bs := h
  obtain rfl := Option.some.inj h2
  show (if h : x.val < 256 then some (⟨x.val, h⟩ : Fin 256) else none) = some x
  rw [dif_pos x.isLt, Option.some.injEq]
  exact Fin.eq_of_val_eq rfl

/-! ## Claim theorems -/

/-- C1 (amended): for every algebra provider and byte buffer b whose length is
a multiple of 32 and at most the 8192-byte BufWriter capacity, if every
32-byte group of b maps under from_random_bytes to a field element whose
to_bytes encoding is exactly that group, and no group ends in a zero byte,
then the chunk round trip succeeds and returns exactly b.  The original claim
only excluded an all-zero trailing group; the counterexample below shows the
per-chunk zero-stripping also loses zero bytes at the end of interior
groups. -/
theorem plaintext_roundtrip (P : AlgebraProvider) (b : List Nat)
    (hmul : b.length % 32 = 0) (hcap : b.length ≤ bufWriterCapacity)
    (hinv : ∀ g ∈ toChunks b, ∃ x, P.fromRandomBytes g = some x ∧ P.toBytes x = some g)
    (hlast : ∀ g ∈ toChunks b, g.getLast? ≠ some 0) :
    roundTrip P b = .ok b := by
  obtain ⟨xs, hcol, hf2⟩ :=
    collectChunks_of_forall P (fun x g => P.toBytes x = some g) (toChunks b) hinv
  have hstripmem : ∀ g ∈ toChunks b, stripTrailingZeros g = g :=
    fun g hg => stripTrailingZeros_eq_self (hlast g hg)
  have hf2s := forall₂_and_right hf2 hstripmem
  have hflat : (toChunks b).flatten = b :=
    toChunks_flatten b.length b le_rfl (Nat.dvd_of_mod_eq_zero hmul)
  have hsum : ((toChunks b).map List.length).sum = b.length := by
    rw [← List.length_flatten, hflat]
  have hwl := writeLoop_append P xs (toChunks b) [] (32 * xs.length) hf2s
    (by rw [List.length_nil, hsum]; omega)
  have hb2p : bytes_to_plaintext_chunks P b = .ok xs := by
    rw [bytes_to_plaintext_chunks, hcol]
  rw [roundTrip, hb2p]
  show plaintext_chunks_to_bytes P xs = Except.ok b
  rw [plaintext_chunks_to_bytes, hwl, List.nil_append, hflat]

/-- C1 counterexample: c1bad is 64 bytes long, a multiple of 32, and none of
its 32-byte groups is all-zero (in particular not the trailing one), yet the
round trip returns c1out, which is c1bad with the 31 zero bytes at the end of
the first group removed. -/
theorem plaintext_roundtrip_counterexample :
    c1bad.length % 32 = 0 ∧
    (∀ g ∈ toChunks c1bad, g ≠ List.replicate 32 0) ∧
    roundTrip specProvider c1bad = .ok c1out ∧
    c1out ≠ c1bad :=
  ⟨by decide, by decide, rfl, by decide⟩

/-- Witness for plaintext_roundtrip at a concrete 32-byte buffer of ones. -/
theorem plaintext_roundtrip_witness : roundTrip specProvider c1good = .ok c1good :=
  plaintext_roundtrip specProvider c1good (by decide) (by decide)
    (by
      intro g hg
      have hall : ∀ h2 ∈ toChunks c1good, h2 = c1good := by decide
      rw [hall g hg]
      exact specProvider_chunk_inverse c1good (by decide) (by decide) (by decide))
    (by decide)

/-- C2: for every provider meeting the canonical codec contract of the spec
(affine width 48 with exact decode, field width 32 with exact decode, and
lossless affine/projective conversion), whenever ciphertext_to_bytes succeeds
on a pair, ciphertext_from_bytes decodes the bytes back to an equal pair. -/
theorem ciphertext_roundtrip (P : AlgebraProvider)
    (hA : ∀ a bs, P.affineSer a = some bs → bs.length = 48)
    (hF : ∀ x bs, P.fieldSer x = some bs → bs.length = 32)
    (hdA : ∀ a bs, P.affineSer a = some bs → P.affineDeser bs = some a)
    (hdF : ∀ x bs, P.fieldSer x = some bs → P.fieldDeser bs = some x)
    (hproj : ∀ p, P.intoProjective (P.intoAffine p) = p)
    (ct : P.Proj × P.FieldEl) (bytes : List Nat)
    (henc : ciphertext_to_bytes P ct = .ok bytes) :
    ciphertext_from_bytes P bytes = .ok ct := by
  rcases h1 : P.affineSer (P.intoAffine ct.1) with _ | b1
  · rw [ciphertext_to_bytes, h1] at henc
    exact absurd henc (by simp)
  · rcases h2 : P.fieldSer ct.2 with _ | b2
    · rw [ciphertext_to_bytes, h1, h2] at henc
      exact absurd henc (by simp)
    · rw [ciphertext_to_bytes, h1, h2] at henc
      obtain rfl := Except.ok.inj henc
      have hl1 : b1.length = 48 := hA _ _ h1
      have hl2 : b2.length = 32 := hF _ _ h2
      have hr1 : readPad 48 (b1 ++ b2) = b1 := by
        rw [readPad_append_of_le b2 (le_of_eq hl1.symm),
          readPad_eq_take (le_of_eq hl1.symm), List.take_of_length_le (le_of_eq hl1)]
      have hdrop : (b1 ++ b2).drop 48 = b2 := by
        rw [List.drop_append_eq_append_drop, hl1, List.drop_eq_nil_of_le (le_of_eq hl1)]
        simp
      have hr2 : readPad 32 ((b1 ++ b2).drop 48) = b2 := by
        rw [hdrop, readPad_eq_take (le_of_eq hl2.symm), List.take_of_length_le (le_of_eq hl2)]
      rw [ciphertext_from_bytes, hr1, hr2, hdA _ _ h1, hdF _ _ h2]
      simp [hproj ct.1]

/-- Witness for ciphertext_roundtrip at a concrete pair over specProvider. -/
theorem ciphertext_roundtrip_witness :
    ciphertext_from_bytes specProvider ctBytesEx = .ok ctEx :=
  ciphertext_roundtrip specProvider specProvider_affineSer_length
    specProvider_fieldSer_length specProvider_affine_roundtrip
    specProvider_field_roundtrip specProvider_proj ctEx ctBytesEx rfl

/-- C3: the decoder reads are best-effort, so a buffer shorter than 80 bytes
decodes exactly as its zero-padding to 80 bytes does, for every provider;
in particular the 79-byte buffer c3input (a valid affine encoding followed by
31 field bytes) is accepted rather than rejected with a decoding error. -/
theorem ciphertext_decode_short_read :
    (∀ (P : AlgebraProvider) (b : List Nat), b.length < 80 →
        ciphertext_from_bytes P b =
          ciphertext_from_bytes P (b ++ List.replicate (80 - b.length) 0)) ∧
    c3input.length = 79 ∧
    isOkE (ciphertext_from_bytes specProvider c3input) = true :=
  ⟨fun P b _ => (ciphertext_from_bytes_pad P b (80 - b.length)).symm, by decide, rfl⟩

/-- C4: the buffer [1, 2, 3, 0] ends in a zero byte inside its final partial
group; the round trip returns [1, 2, 3], dropping that trailing zero byte. -/
theorem trailing_zero_byte_dropped :
    roundTrip specProvider [1, 2, 3, 0] = .ok [1, 2, 3] ∧
    [1, 2, 3] ≠ ([1, 2, 3, 0] : List Nat) :=
  ⟨rfl, by decide⟩

/-- C5: bytes_to_plaintext_chunks partitions its input exactly as the spec
words it (specChunks: consecutive groups of up to 32 bytes, zero-padded on
the right to 32), maps each group through from_random_bytes, and fails with
the encoding error precisely when some group maps to none. -/
theorem chunking_matches_spec (P : AlgebraProvider) (b : List Nat) :
    toChunks b = specChunks b ∧
    bytes_to_plaintext_chunks P b =
      (match collectChunks P (specChunks b) with
        | some xs => Except.ok xs
        | none => Except.error CodecError.encodingChunks) ∧
    (collectChunks P (specChunks b) = none ↔
      ∃ g ∈ specChunks b, P.fromRandomBytes g = none) := by
  refine ⟨toChunks_eq_specChunks b, ?_, collectChunks_none_iff P (specChunks b)⟩
  rw [bytes_to_plaintext_chunks, toChunks_eq_specChunks b]

/-- C6: whenever ciphertext_to_bytes succeeds under the contract widths, the
output is exactly the 48-byte affine encoding of C1 followed by the 32-byte
encoding of C2, 80 bytes in total, with no prefix or tag. -/
theorem ciphertext_encode_layout (P : AlgebraProvider)
    (hA : ∀ a bs, P.affineSer a = some bs → bs.length = 48)
    (hF : ∀ x bs, P.fieldSer x = some bs → bs.length = 32)
    (ct : P.Proj × P.FieldEl) (bytes : List Nat)
    (henc : ciphertext_to_bytes P ct = .ok bytes) :
    ∃ b1 b2, P.affineSer (P.intoAffine ct.1) = some b1 ∧ P.fieldSer ct.2 = some b2 ∧
      bytes = b1 ++ b2 ∧ b1.length = 48 ∧ b2.length = 32 ∧ bytes.length = 80 := by
  rcases h1 : P.affineSer (P.intoAffine ct.1) with _ | b1
  · rw [ciphertext_to_bytes, h1] at henc
    exact absurd henc (by simp)
  · rcases h2 : P.fieldSer ct.2 with _ | b2
    · rw [ciphertext_to_bytes, h1, h2] at henc
      exact absurd henc (by simp)
    · rw [ciphertext_to_bytes, h1, h2] at henc
      obtain rfl := Except.ok.inj henc
      have hl1 : b1.length = 48 := hA _ _ h1
      have hl2 : b2.length = 32 := hF _ _ h2
      exact ⟨b1, b2, rfl, rfl, rfl, hl1, hl2, by simp [hl1, hl2]⟩

/-- Witness for ciphertext_encode_layout at a concrete pair. -/
theorem ciphertext_encode_layout_witness :
    ∃ b1 b2, specProvider.affineSer (specProvider.intoAffine ctEx.1) = some b1 ∧
      specProvider.fieldSer ctEx.2 = some b2 ∧
      ctBytesEx = b1 ++ b2 ∧ b1.length = 48 ∧ b2.length = 32 ∧ ctBytesEx.length = 80 :=
  ciphertext_encode_layout specProvider specProvider_affineSer_length
    specProvider_fieldSer_length ctEx ctBytesEx rfl

/-- C7: writing a key pair with write_artifacts_json and reading the two
files back through read_proving_key and read_verifying_key returns keys equal
to the originals, for every key codec whose canonical encoding round-trips. -/
theorem key_artifact_roundtrip (K : KeyCodec) (dir : PathT) (pk : K.PK) (vk : K.VK)
    (fs fs2 : FS)
    (hpk : ∀ x bs, K.pkSer x = some bs → K.pkDeser bs = some x)
    (hvk : ∀ x bs, K.vkSer x = some bs → K.vkDeser bs = some x)
    (h : write_artifacts_json K dir pk vk fs = .ok fs2) :
    read_proving_key K fs2 (pathJoin dir pkFile) = .ok pk ∧
    read_verifying_key K fs2 (pathJoin dir vkFile) = .ok vk := by
  rcases h1 : K.pkSer pk with _ | pkBuf
  · rw [write_artifacts_json, h1] at h
    exact absurd h (by simp)
  · rcases h2 : K.vkSer vk with _ | vkBuf
    · rw [write_artifacts_json, h1, h2] at h
      exact absurd h (by simp)
    · rw [write_artifacts_json, h1, h2] at h
      obtain rfl := Except.ok.inj h
      constructor
      · have hfs : (fsWrite (fsWrite fs (pathJoin dir pkFile) pkBuf)
            (pathJoin dir vkFile) vkBuf) (pathJoin dir pkFile) = some pkBuf := by
          simp [fsWrite, pk_vk_path_ne dir]
        rw [read_proving_key, hfs]
        simp [hpk pk pkBuf h1]
      · have hfs : (fsWrite (fsWrite fs (pathJoin dir pkFile) pkBuf)
            (pathJoin dir vkFile) vkBuf) (pathJoin dir vkFile) = some vkBuf := by
          simp [fsWrite]
        rw [read_verifying_key, hfs]
        simp [hvk vk vkBuf h2]

/-- Witness for key_artifact_roundtrip over the one-byte key codec. -/
theorem key_artifact_roundtrip_witness :
    read_proving_key natKeyCodec fsEx (pathJoin [keysDir] pkFile) = .ok pkEx ∧
    read_verifying_key natKeyCodec fsEx (pathJoin [keysDir] vkFile) = .ok vkEx :=
  key_artifact_roundtrip natKeyCodec [keysDir] pkEx vkEx fsEmpty fsEx
    natKeyCodec_pk_roundtrip natKeyCodec_vk_roundtrip rfl

/-- C8: the empty byte buffer chunks to the empty chunk sequence, and the
empty chunk sequence decodes to the empty byte buffer, both successfully. -/
theorem empty_input_chunks (P : AlgebraProvider) :
    bytes_to_plaintext_chunks P [] = .ok [] ∧
    plaintext_chunks_to_bytes P [] = .ok [] :=
  ⟨rfl, rfl⟩

/-- C9: under the 32-byte field encoding width, plaintext_chunks_to_bytes
always returns success, and its output is the buffer fold over exactly the
chunks whose serialization succeeded: a chunk whose to_bytes call fails is
silently omitted and never turns into an error result. -/
theorem chunk_serialize_failure_skipped (P : AlgebraProvider)
    (hw : ∀ x bs, P.toBytes x = some bs → bs.length ≤ 32) (chunks : List P.FieldEl) :
    plaintext_chunks_to_bytes P chunks =
      .ok (((chunks.filterMap P.toBytes).map stripTrailingZeros).foldl bufStep []) := by
  rw [plaintext_chunks_to_bytes]
  exact writeLoop_eq_foldl P chunks [] (32 * chunks.length)
    (fun c _ bs h => hw c bs h) (by simp)

/-- Witness for chunk_serialize_failure_skipped at a one-chunk list. -/
theorem chunk_serialize_failure_skipped_witness :
    plaintext_chunks_to_bytes specProvider chunkEx =
      .ok (((chunkEx.filterMap specProvider.toBytes).map stripTrailingZeros).foldl
        bufStep []) :=
  chunk_serialize_failure_skipped specProvider specProvider_toBytes_le chunkEx

/-- C10: for buffers of at least 80 bytes the decoder result depends only on
the first 80 bytes: appending any trailing bytes leaves the result unchanged,
so extra bytes are ignored and never rejected. -/
theorem ciphertext_decode_ignores_trailing (P : AlgebraProvider) (b extra : List Nat)
    (h : 80 ≤ b.length) :
    ciphertext_from_bytes P (b ++ extra) = ciphertext_from_bytes P b := by
  have h48 : 48 ≤ b.length := by omega
  have hr1 : readPad 48 (b ++ extra) = readPad 48 b := readPad_append_of_le extra h48
  have hdrop : (b ++ extra).drop 48 = b.drop 48 ++ extra := by
    rw [List.drop_append_eq_append_drop, Nat.sub_eq_zero_of_le h48, List.drop_zero]
  have hr2 : readPad 32 ((b ++ extra).drop 48) = readPad 32 (b.drop 48) := by
    rw [hdrop]
    exact readPad_append_of_le extra (by simp only [List.length_drop]; omega)
  rw [ciphertext_from_bytes, ciphertext_from_bytes, hr1, hr2]

/-- Witness for ciphertext_decode_ignores_trailing at an 80-byte buffer. -/
theorem ciphertext_decode_ignores_trailing_witness :
    ciphertext_from_bytes specProvider (b80 ++ [7]) =
      ciphertext_from_bytes specProvider b80 :=
  ciphertext_decode_ignores_trailing specProvider b80 [7] (by decide)
